import Mathlib

/-!
Shallow embedding of `bench/report.py`, a benchmark aggregation and
reporting utility.  Python floats are modelled as rationals (exact for
every value the claims exercise), Python strings as Lean strings, and
Python exceptions as `Option`/`Except`/dedicated outcome types.  Each
definition is translated from the source function of the same name.
-/

namespace BenchReport

/-! ### Character and string helpers (Python semantics) -/

/-- Does the first list start with the second one? -/
def chListStarts : List Char → List Char → Bool
  | _, [] => true
  | [], _ :: _ => false
  | a :: as, b :: bs => a == b && chListStarts as bs

/-- Does the first list contain the second as a contiguous segment?
Models the Python substring test `pat in s`. -/
def chListHasSub : List Char → List Char → Bool
  | [], pat => pat.isEmpty
  | a :: as, pat => chListStarts (a :: as) pat || chListHasSub as pat

/-- Python `pat in s` on strings. -/
def strContains (s pat : String) : Bool :=
  chListHasSub s.data pat.data

/-- ASCII whitespace, as recognised by Python `str.split()` (the
commands in this code base are ASCII, so the Unicode cases of Python
whitespace are not needed). -/
def isSpace (c : Char) : Bool :=
  c == ' ' || c == '\t' || c == '\n' || c == '\r' ||
    c == Char.ofNat 11 || c == Char.ofNat 12

/-- Accumulator loop for `pySplit`. -/
def pySplitAux : List Char → List Char → List String
  | [], acc => if acc.isEmpty then [] else [String.mk acc.reverse]
  | c :: rest, acc =>
    if isSpace c then
      if acc.isEmpty then pySplitAux rest []
      else String.mk acc.reverse :: pySplitAux rest []
    else pySplitAux rest (c :: acc)

/-- Python `s.split()` with no argument: split on runs of whitespace,
discarding empty pieces. -/
def pySplit (s : String) : List String :=
  pySplitAux s.data []

/-- Split a character list at every occurrence of `c`; the result has
one piece more than the number of occurrences of `c`.  Used to count
the comma-separated fields of a CSV row. -/
def splitChar (c : Char) : List Char → List (List Char)
  | [] => [[]]
  | a :: as =>
    if a = c then [] :: splitChar c as
    else
      match splitChar c as with
      | [] => [[a]]
      | p :: ps => (a :: p) :: ps

/-- Python `f"{s:<w}"`: left justify by padding with spaces (never
truncates). -/
def ljust (s : String) (w : Nat) : String :=
  s ++ String.mk (List.replicate (w - s.length) ' ')

/-- A separator line of `w` copies of `c` (Python `char * width`). -/
def sepLine (c : Char) (w : Nat) : String :=
  String.mk (List.replicate w c)

/-- The single-quote character, written by code point to keep the
source free of quote literals. -/
def sq : String :=
  String.mk [Char.ofNat 39]

/-- Python `s.lower()` restricted to the ASCII range that the
commands of this code base use: lowercase every character through
`Char.toLower`. -/
def pyLower (s : String) : String :=
  String.mk (s.data.map Char.toLower)

/-! ### Executable rational arithmetic

The standard `Rat.add`/`Rat.mul`/`Rat.div` are irreducible by design,
which blocks closed-term evaluation in proofs; the definitions below
compute the same values through `mkRat` and are proved equal to the
field operations, so theorem statements can still use `*` and `/`. -/

/-- Executable multiplication on `ℚ`, equal to `a * b`
(`qMul_eq`). -/
def qMul (a b : ℚ) : ℚ :=
  mkRat (a.num * b.num) (a.den * b.den)

/-- Executable division on `ℚ`, equal to `a / b` (`qDiv_eq`); division
by zero yields zero, but every use in this file is guarded exactly as
the source guards it. -/
def qDiv (a b : ℚ) : ℚ :=
  mkRat (a.num * b.den * Int.sign b.num) (a.den * b.num.natAbs)

/-! ### Decimal rendering (Python `:.Nf` format, exact on rationals) -/

/-- Decimal digit characters. -/
def digitChar : Nat → Char
  | 0 => '0' | 1 => '1' | 2 => '2' | 3 => '3' | 4 => '4'
  | 5 => '5' | 6 => '6' | 7 => '7' | 8 => '8' | 9 => '9'
  | _ => '0'

/-- Fuel-driven decimal digit expansion of a natural number.  The fuel
passed by `natDigits` always suffices, since a number has at most as
many digits as its own magnitude. -/
def natDigitsAux : Nat → Nat → List Char
  | 0, _ => []
  | fuel + 1, n =>
    if n < 10 then [digitChar n]
    else natDigitsAux fuel (n / 10) ++ [digitChar (n % 10)]

/-- Decimal representation of a natural number, most significant digit
first. -/
def natDigits (n : Nat) : List Char :=
  natDigitsAux (n + 1) n

/-- Python `str(int)`. -/
def intRepr (z : Int) : String :=
  if z < 0 then String.mk ('-' :: natDigits z.natAbs)
  else String.mk (natDigits z.natAbs)

/-- Floor of a rational as an integer (denominators are positive, so
flooring division of the numerator is exact). -/
def ratFloor (q : ℚ) : Int :=
  Int.fdiv q.num q.den

/-- Round a rational to the nearest integer, ties to even — the
rounding used by IEEE-754 formatting, hence by Python `:.Nf` on values
the binary floating format represents exactly.  Computed on the
numerator and denominator directly: with `f = ⌊q⌋` the fractional part
`q - f` compares to `1/2` exactly as `2 * (q.num - f * q.den)`
compares to `q.den`. -/
def rhe (q : ℚ) : Int :=
  let f := ratFloor q
  let twice := 2 * (q.num - f * (q.den : Int))
  if twice < (q.den : Int) then f
  else if (q.den : Int) < twice then f + 1
  else if f % 2 = 0 then f else f + 1

/-- Left-pad a digit list with zeros to width `n`. -/
def padZeros (n : Nat) (l : List Char) : List Char :=
  List.replicate (n - l.length) '0' ++ l

/-- Fixed-point decimal rendering of the scaled nonnegative integer
`m` (the value times `10 ^ prec`). -/
def fmtScaled (prec : Nat) (m : Nat) : List Char :=
  if prec = 0 then natDigits m
  else natDigits (m / 10 ^ prec) ++ '.' :: padZeros prec (natDigits (m % 10 ^ prec))

/-- The rational `q * 10 ^ prec`, built directly on the numerator so
that it evaluates (`qScale_eq` relates it to the field product). -/
def qScale (prec : Nat) (q : ℚ) : ℚ :=
  mkRat (q.num * ((10 ^ prec : Nat) : Int)) q.den

/-- Python `f"{q:.precf}"` on an exactly-represented value `q`:
fixed-point rendering with `prec` digits after the point, round half
to even, and a leading minus sign for negative inputs (including the
negative-zero outputs such as `-0.00`). -/
def fmtFixed (prec : Nat) (q : ℚ) : String :=
  if q < 0 then String.mk ('-' :: fmtScaled prec (rhe (qScale prec (-q))).toNat)
  else String.mk (fmtScaled prec (rhe (qScale prec q)).toNat)

/-! ### Metrics formatter (`format_time`, `format_throughput`,
`calculate_speedup`, `get_tool_name`) -/

/-- Source `format_time`: human readable duration.  Buckets: below one
millisecond render microseconds, below one second render milliseconds,
otherwise seconds. -/
def format_time (seconds : ℚ) : String :=
  if seconds < mkRat 1 1000 then fmtFixed 1 (qMul seconds 1000000) ++ " µs"
  else if seconds < 1 then fmtFixed 1 (qMul seconds 1000) ++ " ms"
  else fmtFixed 3 seconds ++ " s"

/-- Source `format_throughput`: megabytes per second, one decimal
digit, with the sentinel for non-positive durations. -/
def format_throughput (size_mb time_seconds : ℚ) : String :=
  if time_seconds ≤ 0 then "N/A"
  else fmtFixed 1 (qDiv size_mb time_seconds) ++ " MB/s"

/-- Source `calculate_speedup`.  `none` models the uncaught Python
`ZeroDivisionError` raised by `1 / ratio` when the ratio is exactly
zero (base time zero with positive compare time). -/
def calculate_speedup (base_time compare_time : ℚ) : Option String :=
  if compare_time ≤ 0 then some "N/A"
  else if 1 ≤ qDiv base_time compare_time then
    some (fmtFixed 2 (qDiv base_time compare_time) ++ "x faster")
  else if qDiv base_time compare_time = 0 then none
  else some (fmtFixed 2 (qDiv 1 (qDiv base_time compare_time)) ++ "x slower")

/-- The literal `"rg'"` (rg followed by a single quote), built by code
point. -/
def rgQuote : String :=
  String.mk ['r', 'g', Char.ofNat 39]

/-- Source `get_tool_name`.  `none` models the uncaught Python
`IndexError` of `command.split()[0]` on a command with no whitespace
delimited tokens.  Note two case-sensitivity quirks of the source: the
`"rg "`/`"rg'"` alias checks and the `"/grep"` check run against the
original command, not the lowercased one. -/
def get_tool_name (command : String) : Option String :=
  if strContains (pyLower command) "mygrep" then some "mygrep"
  else if strContains (pyLower command) "ripgrep" || strContains command "rg " ||
      strContains command rgQuote then some "ripgrep"
  else if strContains (pyLower command) "ggrep" || strContains (pyLower command) "gnu-grep" ||
      strContains command "/grep" then some "gnu-grep"
  else (pySplit command).head?

/-! ### Data model -/

/-- Source dataclass `BenchmarkResult`: one tool inside a run. -/
structure BenchmarkResult where
  command : String
  mean : ℚ
  stddev : ℚ
  median : ℚ
  min : ℚ
  max : ℚ
  times : List ℚ
deriving DecidableEq

/-- Source dataclass `BenchmarkRun`: one complete benchmark run. -/
structure BenchmarkRun where
  name : String
  timestamp : String
  pattern : String
  target_path : String
  size_mb : ℚ
  file_count : Int
  cold_run : Bool
  results : List BenchmarkResult
deriving DecidableEq

/-- The comparison used by `sorted(run.results, key=lambda r: r.mean)`:
Python `sorted` is a stable sort by the key, which
`List.insertionSort` with this relation implements exactly. -/
def meanLe (a b : BenchmarkResult) : Prop :=
  a.mean ≤ b.mean

instance decMeanLe : DecidableRel meanLe :=
  fun a b => inferInstanceAs (Decidable (a.mean ≤ b.mean))

instance totalMeanLe : IsTotal BenchmarkResult meanLe :=
  ⟨fun a b => le_total a.mean b.mean⟩

instance transMeanLe : IsTrans BenchmarkResult meanLe :=
  ⟨fun _ _ _ h₁ h₂ => le_trans h₁ h₂⟩

/-! ### Human-readable renderer (`print_benchmark_report`)

The renderer is modelled as the list of lines it prints.  A `none`
result models an uncaught Python exception somewhere in the printing
loop (the partially printed prefix is not modelled; no claim concerns
it). -/

/-- Map a fallible function over a list, failing as soon as one
element fails. -/
def optMapM (f : α → Option β) : List α → Option (List β)
  | [] => some []
  | x :: xs =>
    match f x with
    | none => none
    | some y =>
      match optMapM f xs with
      | none => none
      | some ys => some (y :: ys)

/-- One row of the per-run table, as printed by the loop body of
`print_benchmark_report`. -/
def rowText (run : BenchmarkRun) (r : BenchmarkResult)
    (tool_name comparison : String) : String :=
  "  " ++ ljust tool_name 15 ++ " " ++ ljust (format_time r.mean) 12 ++ " " ++
    ljust (format_time r.median) 12 ++ " " ++ ljust (format_time r.stddev) 12 ++ " " ++
    ljust (format_time r.min) 12 ++ " " ++ ljust (format_time r.max) 12 ++ " " ++
    ljust (format_throughput run.size_mb r.mean) 12 ++ " " ++ ljust comparison 15

/-- The loop body of `print_benchmark_report`: the row for `r`, its
comparison column holding `"baseline"` when `r` is structurally equal
to the fastest result (Python dataclass `==`) and the speedup against
the fastest mean otherwise. -/
def resultLine (run : BenchmarkRun) (fastest r : BenchmarkResult) : Option String :=
  match get_tool_name r.command with
  | none => none
  | some tool_name =>
    match (if r = fastest then some "baseline" else calculate_speedup r.mean fastest.mean) with
    | none => none
    | some comparison => some (rowText run r tool_name comparison)

/-- The data rows of the per-run table, in sorted order. -/
def reportTableRows (run : BenchmarkRun) : Option (List String) :=
  match List.insertionSort meanLe run.results with
  | [] => none
  | fastest :: rest => optMapM (resultLine run fastest) (fastest :: rest)

/-- Python `next((r for r in run.results if "mygrep" in
get_tool_name(r.command)), None)`: the outer `none` models an
exception raised inside the generator, the inner option is the search
result. -/
def pyFirstMygrep : List BenchmarkResult → Option (Option BenchmarkResult)
  | [] => some none
  | r :: rs =>
    match get_tool_name r.command with
    | none => none
    | some n => if strContains n "mygrep" then some (some r) else pyFirstMygrep rs

/-- The summary lines comparing the mygrep result against every other
tool, in sorted order. -/
def summaryLinesFor (mg : BenchmarkResult) : List BenchmarkResult → Option (List String)
  | [] => some []
  | r :: rs =>
    match get_tool_name r.command with
    | none => none
    | some tool_name =>
      if tool_name = "mygrep" then summaryLinesFor mg rs
      else
        match calculate_speedup mg.mean r.mean with
        | none => none
        | some speedup =>
          match summaryLinesFor mg rs with
          | none => none
          | some ls => some (("    mygrep vs " ++ tool_name ++ ": " ++ speedup) :: ls)

/-- The header block printed before the table of a run. -/
def headerBlock (run : BenchmarkRun) : List String :=
  let cache_mode := if run.cold_run then "cold" else "warm"
  ["", sepLine '=' 80, "Benchmark: " ++ run.name, sepLine '=' 80,
    "  Timestamp:   " ++ run.timestamp,
    "  Pattern:     " ++ sq ++ run.pattern ++ sq,
    "  Target:      " ++ run.target_path,
    "  Size:        " ++ fmtFixed 1 run.size_mb ++ " MB (" ++ intRepr run.file_count ++ " files)",
    "  Cache mode:  " ++ cache_mode, ""]

/-- The column-header line of the per-run table. -/
def tableHeader : String :=
  "  " ++ ljust "Tool" 15 ++ " " ++ ljust "Mean" 12 ++ " " ++ ljust "Median" 12 ++ " " ++
    ljust "Stddev" 12 ++ " " ++ ljust "Min" 12 ++ " " ++ ljust "Max" 12 ++ " " ++
    ljust "Throughput" 12 ++ " " ++ ljust "vs Fastest" 15

/-- Source `print_benchmark_report`, as the list of printed lines. -/
def print_benchmark_report (run : BenchmarkRun) : Option (List String) :=
  if run.results.isEmpty then some (headerBlock run ++ ["  No results available"])
  else
    match reportTableRows run with
    | none => none
    | some rows =>
      match pyFirstMygrep run.results with
      | none => none
      | some none => some (headerBlock run ++ tableHeader :: sepLine '-' 80 :: rows ++ [""])
      | some (some mg) =>
        match summaryLinesFor mg (List.insertionSort meanLe run.results) with
        | none => none
        | some sls =>
          some (headerBlock run ++ tableHeader :: sepLine '-' 80 :: rows ++
            [""] ++ "  Summary:" :: sls)

/-! ### CSV renderer (`print_csv_report`) -/

/-- Python `str(float)`, restricted to values with a terminating
decimal expansion (every size value the claims exercise is one, and
binary floats only produce such values); rendered without exponent
notation and with at least one fractional digit, like Python does for
values of moderate magnitude.  The fallback branch for a
non-terminating denominator is unreachable from float data.  Only the
absence of a comma in the output is relied on by the theorems. -/
def pyFloatRepr (q : ℚ) : String :=
  let sign := if q.num < 0 then "-" else ""
  match (List.range 41).find? (fun k => 10 ^ k % q.den == 0) with
  | some k =>
    let m := q.num.natAbs * 10 ^ k / q.den
    if k = 0 then sign ++ String.mk (natDigits m) ++ ".0"
    else
      sign ++ String.mk (natDigits (m / 10 ^ k)) ++ "." ++
        String.mk (padZeros k (natDigits (m % 10 ^ k)))
  | none => sign ++ String.mk (natDigits q.num.natAbs) ++ "/" ++ String.mk (natDigits q.den)

/-- The fixed CSV header row. -/
def csvHeader : String :=
  "benchmark,cache_mode,pattern,size_mb,file_count,tool,mean_s,median_s,stddev_s,min_s,max_s,throughput_mbs"

/-- The raw field texts of one CSV data row, in header order. -/
def csvFields (run : BenchmarkRun) (r : BenchmarkResult) (tool_name : String) : List String :=
  [run.name, if run.cold_run then "cold" else "warm", run.pattern,
    pyFloatRepr run.size_mb, intRepr run.file_count, tool_name,
    fmtFixed 6 r.mean, fmtFixed 6 r.median, fmtFixed 6 r.stddev,
    fmtFixed 6 r.min, fmtFixed 6 r.max,
    fmtFixed 2 (if 0 < r.mean then qDiv run.size_mb r.mean else 0)]

/-- The text of one CSV data row, exactly as the source f-string
concatenates it: the raw field texts joined by bare commas, with no
quoting or escaping. -/
def csvRowText (run : BenchmarkRun) (r : BenchmarkResult) (tool_name : String) : String :=
  run.name ++ "," ++ (if run.cold_run then "cold" else "warm") ++ "," ++
    run.pattern ++ "," ++ pyFloatRepr run.size_mb ++ "," ++
    intRepr run.file_count ++ "," ++ tool_name ++ "," ++
    fmtFixed 6 r.mean ++ "," ++ fmtFixed 6 r.median ++ "," ++
    fmtFixed 6 r.stddev ++ "," ++ fmtFixed 6 r.min ++ "," ++
    fmtFixed 6 r.max ++ "," ++
    fmtFixed 2 (if 0 < r.mean then qDiv run.size_mb r.mean else 0)

/-- One CSV data row. -/
def csvRow (run : BenchmarkRun) (r : BenchmarkResult) : Option String :=
  (get_tool_name r.command).map (csvRowText run r)

/-- All CSV data rows of one run, in original result order. -/
def csvRowsForRun (run : BenchmarkRun) : Option (List String) :=
  optMapM (csvRow run) run.results

/-- Source `print_csv_report`, as the list of printed lines. -/
def print_csv_report (runs : List BenchmarkRun) : Option (List String) :=
  match optMapM csvRowsForRun runs with
  | none => none
  | some rss => some (csvHeader :: rss.flatten)

/-! ### File selector (`find_result_files`)

Directory listing is the OS boundary: the embedding receives the list
of file names that `results_dir.glob("*.json")` produced (all in one
directory, so Python path ordering is their name ordering) and models
the selection logic on it. -/

/-- Lexicographic strict order on character lists by code point —
Python string `<`. -/
def chListLt : List Char → List Char → Bool
  | [], [] => false
  | [], _ :: _ => true
  | _ :: _, [] => false
  | a :: as, b :: bs =>
    if a < b then true else if b < a then false else chListLt as bs

/-- Lexicographic order on character lists by code point — Python
string `<=`. -/
def chListLe : List Char → List Char → Bool
  | [], _ => true
  | _ :: _, [] => false
  | a :: as, b :: bs =>
    if a < b then true else if b < a then false else chListLe as bs

/-- Python string order, as a proposition for sorting. -/
def strLe (a b : String) : Prop :=
  chListLe a.data b.data = true

instance decStrLe : DecidableRel strLe :=
  fun a b => inferInstanceAs (Decidable (chListLe a.data b.data = true))

/-- Python `Path.stem`: the final suffix is removed when its dot is
neither the first nor the last character of the name. -/
def stemOf (name : String) : String :=
  let cs := name.data
  match (List.range cs.length).foldl
      (fun acc i => if cs.getD i ' ' = '.' then some i else acc) none with
  | some i => if 0 < i ∧ i + 1 < cs.length then String.mk (cs.take i) else name
  | none => name

/-- The benchmark family of a stem: `stem.rsplit("_", 2)` keeps at
most the last two underscore cuts, and when it yields three parts the
leading part — the stem with its trailing two underscore segments
stripped — is the family; otherwise the whole stem is. -/
def benchType (stem : String) : String :=
  let parts := splitChar '_' stem.data
  if 3 ≤ parts.length then String.mk (List.intercalate ['_'] parts.dropLast.dropLast)
  else stem

/-- The grouping key of a result file. -/
def famOfFile (f : String) : String :=
  benchType (stemOf f)

/-- Python `sorted` on file-name strings. -/
def sortStr (l : List String) : List String :=
  List.insertionSort strLe l

/-- Append a file to its family group, keeping dict insertion order;
models `groups[bench_type].append(f)` with defaulting insertion. -/
def addTo : List (String × List String) → String → String → List (String × List String)
  | [], fam, f => [(fam, [f])]
  | (k, fs) :: rest, fam, f =>
    if k = fam then (k, fs ++ [f]) :: rest
    else (k, fs) :: addTo rest fam f

/-- The grouping loop of `find_result_files`. -/
def buildGroups (files : List String) : List (String × List String) :=
  files.foldl (fun gs f => addTo gs (famOfFile f) f) []

/-- Python `sorted(files)[-1]`: the lexicographically greatest file of
a group, computed as a running maximum (the empty string is below
every file name, and groups are never empty). -/
def latestOf (fs : List String) : String :=
  fs.foldl (fun a b => if chListLt a.data b.data then b else a) ""

/-- Source `find_result_files` on the glob result: sort, then under
`latest_only` keep the greatest file of each family and sort the
keepers.  The missing-directory and no-files diagnostics both yield
the empty list. -/
def find_result_files (files : List String) (latest_only : Bool) : List String :=
  if (sortStr files).isEmpty then []
  else if latest_only then
    sortStr ((buildGroups (sortStr files)).map (fun p => latestOf p.2))
  else sortStr files

/-! ### Record loader (`BenchmarkRun.from_json_file`)

The file contents arrive as an optional parsed JSON value: `none`
stands for an unreadable file or one that `json.load` rejects (the
`IOError`/`JSONDecodeError` cases the source catches).  `LoadOutcome`
distinguishes the caught path — a warning on stderr and a `None`
return — from an uncaught exception and from success. -/

/-- Parsed JSON values. -/
inductive JVal where
  | null
  | bool (b : Bool)
  | num (q : ℚ)
  | str (s : String)
  | arr (elems : List JVal)
  | obj (fields : List (String × JVal))

/-- The uncaught Python exceptions the loader can raise. -/
inductive PyErr where
  | attributeError
  | typeError
deriving DecidableEq

/-- What one call of `BenchmarkRun.from_json_file` does. -/
inductive LoadOutcome where
  /-- An exception escaped the loader. -/
  | raised (e : PyErr)
  /-- The caught path: a warning was written to stderr and `None`
  returned. -/
  | skipped
  /-- A run was returned. -/
  | loaded (run : BenchmarkRun)
deriving DecidableEq

/-- Key lookup in a JSON object; later duplicate keys win, as in a
Python dict built by `json.load`. -/
def jLookup (fields : List (String × JVal)) (key : String) : Option JVal :=
  List.lookup key fields.reverse

/-- Python `v.get(key, dflt)`: only dicts have `.get`, every other
value raises `AttributeError`. -/
def dictGet (v : JVal) (key : String) (dflt : JVal) : Except PyErr JVal :=
  match v with
  | .obj fields => .ok ((jLookup fields key).getD dflt)
  | _ => .error .attributeError

/-- Python `for r in v`: arrays yield elements, dicts their keys,
strings their characters; other values raise `TypeError`. -/
def jIter : JVal → Except PyErr (List JVal)
  | .arr xs => .ok xs
  | .obj fields => .ok (((fields.map Prod.fst).dedup).map JVal.str)
  | .str s => .ok (s.data.map (fun c => JVal.str (String.mk [c])))
  | _ => .error .typeError

/-- Coerce a JSON value into the string slot of the dataclass.  The
Python dataclass stores the raw dynamic value; the coercion is the
identity whenever the field holds the documented type, which every
claim input does. -/
def coStr : JVal → String
  | .str s => s
  | _ => ""

/-- Coerce into a numeric slot; see `coStr` on fidelity. -/
def coNum : JVal → ℚ
  | .num q => q
  | _ => 0

/-- Coerce into the integer `file_count` slot; see `coStr` on
fidelity. -/
def coInt : JVal → Int
  | .num q => ratFloor q
  | _ => 0

/-- Coerce into the boolean `cold_run` slot; see `coStr` on
fidelity. -/
def coBool : JVal → Bool
  | .bool b => b
  | _ => false

/-- Coerce into the `times` slot; see `coStr` on fidelity. -/
def coNumList : JVal → List ℚ
  | .arr xs => xs.map coNum
  | _ => []

/-- Map a fallible function over a list in the `Except` monad, keeping
the first raised exception — the list comprehension over `results`. -/
def exMapM (f : α → Except PyErr β) : List α → Except PyErr (List β)
  | [] => .ok []
  | x :: xs =>
    match f x with
    | .error e => .error e
    | .ok y =>
      match exMapM f xs with
      | .error e => .error e
      | .ok ys => .ok (y :: ys)

/-- Source `BenchmarkResult.from_hyperfine`: every field defaults when
absent.  The source performs seven `data.get` calls; each would raise
`AttributeError` on a non-dict element, so the single dict check here
produces the same outcome. -/
def from_hyperfine (data : JVal) : Except PyErr BenchmarkResult :=
  match data with
  | .obj fields =>
    .ok ⟨coStr ((jLookup fields "command").getD (.str "unknown")),
      coNum ((jLookup fields "mean").getD (.num 0)),
      coNum ((jLookup fields "stddev").getD (.num 0)),
      coNum ((jLookup fields "median").getD (.num 0)),
      coNum ((jLookup fields "min").getD (.num 0)),
      coNum ((jLookup fields "max").getD (.num 0)),
      coNumList ((jLookup fields "times").getD (.arr []))⟩
  | _ => .error .attributeError

/-- The body of `from_json_file` after a successful `json.load`, in
source evaluation order: fetch `metadata`, build the results list,
then read the metadata fields (the seven `metadata.get` calls share
one dict check, as in `from_hyperfine`). -/
def buildRun (stem : String) (data : JVal) : Except PyErr BenchmarkRun :=
  match dictGet data "metadata" (.obj []) with
  | .error e => .error e
  | .ok metadata =>
    match dictGet data "results" (.arr []) with
    | .error e => .error e
    | .ok rawResults =>
      match jIter rawResults with
      | .error e => .error e
      | .ok items =>
        match exMapM from_hyperfine items with
        | .error e => .error e
        | .ok results =>
          match metadata with
          | .obj mfields =>
            .ok ⟨coStr ((jLookup mfields "benchmark_name").getD (.str stem)),
              coStr ((jLookup mfields "timestamp").getD (.str "unknown")),
              coStr ((jLookup mfields "pattern").getD (.str "unknown")),
              coStr ((jLookup mfields "target_path").getD (.str "unknown")),
              coNum ((jLookup mfields "size_mb").getD (.num 0)),
              coInt ((jLookup mfields "file_count").getD (.num 1)),
              coBool ((jLookup mfields "cold_run").getD (.bool false)),
              results⟩
          | _ => .error .attributeError

/-- Source `BenchmarkRun.from_json_file`.  `input = none` is a file
the `try` block failed to read or parse; the handler warns and returns
`None`.  Everything after the `try` block runs unprotected. -/
def from_json_file (stem : String) (input : Option JVal) : LoadOutcome :=
  match input with
  | none => .skipped
  | some data =>
    match buildRun stem data with
    | .error e => .raised e
    | .ok run => .loaded run

/-- Is the value a JSON object? -/
def isObjB : JVal → Bool
  | .obj _ => true
  | _ => false

/-- The documented shape of a measurement record: a top-level object
whose `metadata` field, if present, is an object, and whose `results`
field, if present, is an array of objects. -/
def goodShape : JVal → Bool
  | .obj fields =>
    (match jLookup fields "metadata" with
      | none => true
      | some m => isObjB m) &&
    (match jLookup fields "results" with
      | none => true
      | some (.arr xs) => xs.all isObjB
      | some _ => false)
  | _ => false

/-- Characters a fixed-point numeric rendering can contain. -/
def isNumChar (c : Char) : Bool :=
  c.isDigit || c == '.' || c == '-'

/-- The member list of the group with key `k` (keys are unique by
construction, see `buildGroups_keys_nodup`). -/
def groupOf : List (String × List String) → String → List String
  | [], _ => []
  | (k1, fs) :: rest, k => if k1 = k then fs else groupOf rest k

/-! ### Concrete fixtures used by witnesses and counterexamples -/

/-- A mygrep result with mean one second. -/
def mygrepR : BenchmarkResult :=
  ⟨"mygrep pat file", 1, 0, 0, 0, 0, []⟩

/-- A ripgrep result with mean half a second. -/
def ripgrepR : BenchmarkResult :=
  ⟨"rg pat file", mkRat 1 2, 0, 0, 0, 0, []⟩

/-- A run holding exactly the mygrep and ripgrep results above. -/
def twoToolRun : BenchmarkRun :=
  ⟨"bench", "ts", "pat", "target", 100, 1, false, [mygrepR, ripgrepR]⟩

/-- A run holding two structurally identical results. -/
def dupRun : BenchmarkRun :=
  ⟨"dup", "ts", "pat", "target", 1, 1, false, [mygrepR, mygrepR]⟩

/-- A run whose name contains a comma. -/
def commaRun : BenchmarkRun :=
  ⟨"a,b", "ts", "pat", "target", 1, 1, false, [mygrepR]⟩

/-! ### The executable arithmetic agrees with the field operations -/

theorem qMul_eq (a b : ℚ) : qMul a b = a * b := by
  unfold qMul
  rw [Rat.mkRat_eq_divInt, Rat.divInt_eq_div]
  push_cast
  conv_rhs => rw [← Rat.num_div_den a, ← Rat.num_div_den b]
  rw [div_mul_div_comm]

theorem qDiv_eq (a b : ℚ) : qDiv a b = a / b := by
  unfold qDiv
  rcases lt_trichotomy b.num 0 with h | h | h
  · have hben : ((b.num.natAbs : Int) : ℚ) = (-b.num : ℚ) := by
      push_cast [Int.ofNat_natAbs_of_nonpos (le_of_lt h)]
      ring
    rw [Rat.mkRat_eq_divInt, Rat.divInt_eq_div, Int.sign_eq_neg_one_of_neg h]
    push_cast [hben]
    conv_rhs => rw [← Rat.num_div_den a, ← Rat.num_div_den b]
    have hd : (a.den : ℚ) ≠ 0 := Nat.cast_ne_zero.mpr a.den_nz
    have hbd : (b.den : ℚ) ≠ 0 := Nat.cast_ne_zero.mpr b.den_nz
    have hbn : (b.num : ℚ) ≠ 0 := Int.cast_ne_zero.mpr (ne_of_lt h)
    have habs : |(b.num : ℚ)| = -(b.num : ℚ) :=
      abs_of_neg (by exact_mod_cast h)
    field_simp [habs]
  · have hb : b = 0 := by
      rw [← Rat.num_div_den b, h]
      simp
    subst hb
    simp
  · rw [Rat.mkRat_eq_divInt, Rat.divInt_eq_div, Int.sign_eq_one_of_pos h]
    push_cast [Int.natAbs_of_nonneg (le_of_lt h)]
    conv_rhs => rw [← Rat.num_div_den a, ← Rat.num_div_den b]
    have hd : (a.den : ℚ) ≠ 0 := Nat.cast_ne_zero.mpr a.den_nz
    have hbd : (b.den : ℚ) ≠ 0 := Nat.cast_ne_zero.mpr b.den_nz
    have hbn : (b.num : ℚ) ≠ 0 := Int.cast_ne_zero.mpr (ne_of_gt h)
    field_simp

theorem qScale_eq (prec : Nat) (q : ℚ) : qScale prec q = q * 10 ^ prec := by
  unfold qScale
  rw [Rat.mkRat_eq_divInt, Rat.divInt_eq_div]
  push_cast
  conv_rhs => rw [← Rat.num_div_den q]
  have hd : (q.den : ℚ) ≠ 0 := Nat.cast_ne_zero.mpr q.den_nz
  field_simp

/-! ### Character-set facts about the numeric renderings -/

theorem digitChar_numChar (d : Nat) : isNumChar (digitChar d) = true := by
  unfold digitChar
  rcases d with _ | _ | _ | _ | _ | _ | _ | _ | _ | _ | d <;> rfl

theorem natDigitsAux_numChar :
    ∀ fuel n, ∀ c ∈ natDigitsAux fuel n, isNumChar c = true := by
  intro fuel
  induction fuel with
  | zero => intro n c hc; simp [natDigitsAux] at hc
  | succ fuel ih =>
    intro n c hc
    unfold natDigitsAux at hc
    by_cases h : n < 10
    · rw [if_pos h] at hc
      rcases List.mem_singleton.mp hc with rfl
      exact digitChar_numChar n
    · rw [if_neg h] at hc
      rcases List.mem_append.mp hc with h' | h'
      · exact ih _ c h'
      · rcases List.mem_singleton.mp h' with rfl
        exact digitChar_numChar _

theorem natDigits_numChar (n : Nat) : ∀ c ∈ natDigits n, isNumChar c = true :=
  natDigitsAux_numChar (n + 1) n

theorem natDigits_ne_nil (n : Nat) : natDigits n ≠ [] := by
  unfold natDigits natDigitsAux
  by_cases h : n < 10
  · simp [h]
  · simp [h]

theorem padZeros_numChar (k : Nat) (l : List Char)
    (h : ∀ c ∈ l, isNumChar c = true) : ∀ c ∈ padZeros k l, isNumChar c = true := by
  intro c hc
  rcases List.mem_append.mp hc with h' | h'
  · rcases List.eq_of_mem_replicate h' with rfl
    rfl
  · exact h c h'

theorem fmtScaled_numChar (p m : Nat) : ∀ c ∈ fmtScaled p m, isNumChar c = true := by
  intro c hc
  unfold fmtScaled at hc
  by_cases hp : p = 0
  · rw [if_pos hp] at hc
    exact natDigits_numChar _ c hc
  · rw [if_neg hp] at hc
    rcases List.mem_append.mp hc with h' | h'
    · exact natDigits_numChar _ c h'
    · rcases List.mem_cons.mp h' with rfl | h''
      · rfl
      · exact padZeros_numChar _ _ (natDigits_numChar _) c h''

theorem fmtScaled_ne_nil (p m : Nat) : fmtScaled p m ≠ [] := by
  unfold fmtScaled
  by_cases hp : p = 0
  · rw [if_pos hp]; exact natDigits_ne_nil m
  · rw [if_neg hp]
    intro h
    rcases List.append_eq_nil.mp h with ⟨h₁, h₂⟩
    exact List.cons_ne_nil _ _ h₂

theorem fmtFixed_data (p : Nat) (q : ℚ) :
    ∃ c cs, (fmtFixed p q).data = c :: cs ∧ isNumChar c = true := by
  unfold fmtFixed
  by_cases hq : q < 0
  · rw [if_pos hq]
    exact ⟨'-', _, rfl, rfl⟩
  · rw [if_neg hq]
    rcases hd : fmtScaled p (rhe (qScale p q)).toNat with _ | ⟨c, cs⟩
    · exact absurd hd (fmtScaled_ne_nil _ _)
    · exact ⟨c, cs, by simp [hd], fmtScaled_numChar _ _ c (by rw [hd]; exact List.mem_cons_self c cs)⟩

theorem fmtFixed_append_ne_NA (p : Nat) (q : ℚ) (s : String) :
    fmtFixed p q ++ s ≠ "N/A" := by
  intro h
  obtain ⟨c, cs, hc, hnum⟩ := fmtFixed_data p q
  have hd := congrArg String.data h
  rw [String.data_append, hc] at hd
  have : c = 'N' := by
    simpa using congrArg List.head? hd
  subst this
  exact absurd hnum (by decide)

/-! ### Substring and split facts -/

theorem chListStarts_mem :
    ∀ pat l, chListStarts l pat = true → ∀ c ∈ pat, c ∈ l := by
  intro pat
  induction pat with
  | nil => intro l _ c hc; simp at hc
  | cons b bs ih =>
    intro l h c hc
    match l with
    | [] => simp [chListStarts] at h
    | a :: as =>
      rw [chListStarts, Bool.and_eq_true] at h
      obtain ⟨hab, hrest⟩ := h
      have hab' : a = b := by
        exact eq_of_beq hab
      rcases List.mem_cons.mp hc with rfl | hc'
      · exact hab' ▸ List.mem_cons_self a as
      · exact List.mem_cons_of_mem a (ih as hrest c hc')

theorem chListHasSub_mem :
    ∀ l pat, chListHasSub l pat = true → ∀ c ∈ pat, c ∈ l := by
  intro l
  induction l with
  | nil =>
    intro pat h c hc
    rw [chListHasSub] at h
    rcases List.isEmpty_iff.mp h with rfl
    simp at hc
  | cons a as ih =>
    intro pat h c hc
    rw [chListHasSub, Bool.or_eq_true] at h
    rcases h with h | h
    · exact chListStarts_mem pat (a :: as) h c hc
    · exact List.mem_cons_of_mem a (ih pat h c hc)

theorem strContains_mem (s pat : String) (h : strContains s pat = true) :
    ∀ c ∈ pat.data, c ∈ s.data :=
  chListHasSub_mem s.data pat.data h

theorem splitChar_length (c : Char) :
    ∀ l : List Char, (splitChar c l).length = l.count c + 1 := by
  intro l
  induction l with
  | nil => rfl
  | cons a as ih =>
    rw [splitChar]
    by_cases h : a = c
    · rw [if_pos h]
      simp [List.count_cons, h, ih]
    · rw [if_neg h]
      rcases hs : splitChar c as with _ | ⟨p, ps⟩
      · have := ih
        rw [hs] at this
        simp at this
      · have := ih
        rw [hs] at this
        simp only [List.length_cons] at this ⊢
        simp [List.count_cons, h, ← this]

theorem pySplitAux_eq_nil :
    ∀ cs acc, pySplitAux cs acc = [] ↔ (acc = [] ∧ cs.all isSpace = true) := by
  intro cs
  induction cs with
  | nil =>
    intro acc
    rw [pySplitAux]
    by_cases h : acc.isEmpty
    · simp [h, List.isEmpty_iff.mp h]
    · simp [h]
      intro h'
      exact absurd (by simp [h']) h
  | cons c rest ih =>
    intro acc
    rw [pySplitAux]
    by_cases hsp : isSpace c
    · rw [if_pos hsp]
      by_cases h : acc.isEmpty
      · rw [if_pos h, ih]
        simp [List.isEmpty_iff.mp h, hsp]
      · rw [if_neg h]
        simp [List.all_cons, hsp]
        intro h'
        exact absurd (by simp [h']) h
    · rw [if_neg hsp, ih]
      simp [List.all_cons, hsp]

theorem pySplit_eq_nil (s : String) :
    pySplit s = [] ↔ s.data.all isSpace = true := by
  unfold pySplit
  rw [pySplitAux_eq_nil]
  simp

/-! ### Totality of `get_tool_name` and `calculate_speedup` -/

theorem isSpace_toLower (c : Char) (h : isSpace c = true) :
    isSpace (Char.toLower c) = true := by
  have : c = ' ' ∨ c = '\t' ∨ c = '\n' ∨ c = '\r' ∨
      c = Char.ofNat 11 ∨ c = Char.ofNat 12 := by
    unfold isSpace at h
    simp only [Bool.or_eq_true, beq_iff_eq] at h
    tauto
  rcases this with rfl | rfl | rfl | rfl | rfl | rfl <;> rfl

theorem allSpace_pyLower (s : String) (h : s.data.all isSpace = true) :
    (pyLower s).data.all isSpace = true := by
  unfold pyLower
  rw [List.all_eq_true] at h ⊢
  intro c hc
  simp only [String.data] at hc
  rcases List.mem_map.mp hc with ⟨d, hd, rfl⟩
  exact isSpace_toLower d (h d hd)

theorem allSpace_not_contains (s pat : String) (hs : s.data.all isSpace = true)
    (hc : ∃ c ∈ pat.data, isSpace c = false) : strContains s pat = false := by
  by_contra h
  rw [Bool.not_eq_false] at h
  obtain ⟨c, hcp, hcs⟩ := hc
  have := strContains_mem s pat h c hcp
  rw [List.all_eq_true] at hs
  exact absurd (hs c this) (by simp [hcs])

theorem get_tool_name_eq_none_iff (c : String) :
    get_tool_name c = none ↔ c.data.all isSpace = true := by
  constructor
  · intro h
    unfold get_tool_name at h
    split at h
    · exact absurd h (by simp)
    · split at h
      · exact absurd h (by simp)
      · split at h
        · exact absurd h (by simp)
        · rw [List.head?_eq_none_iff] at h
          exact (pySplit_eq_nil c).mp h
  · intro h
    unfold get_tool_name
    rw [allSpace_not_contains (pyLower c) "mygrep" (allSpace_pyLower c h) (by decide),
      allSpace_not_contains (pyLower c) "ripgrep" (allSpace_pyLower c h) (by decide),
      allSpace_not_contains c "rg " h (by decide),
      allSpace_not_contains c rgQuote h (by decide),
      allSpace_not_contains (pyLower c) "ggrep" (allSpace_pyLower c h) (by decide),
      allSpace_not_contains (pyLower c) "gnu-grep" (allSpace_pyLower c h) (by decide),
      allSpace_not_contains c "/grep" h (by decide)]
    simp [List.head?_eq_none_iff, pySplit_eq_nil, h]

theorem calculate_speedup_eq_none_iff (a b : ℚ) :
    calculate_speedup a b = none ↔ (a = 0 ∧ 0 < b) := by
  unfold calculate_speedup
  by_cases hb : b ≤ 0
  · rw [if_pos hb]
    simp
    intro
    exact hb
  · have hb' : 0 < b := not_le.mp hb
    rw [if_neg hb, qDiv_eq]
    by_cases h1 : 1 ≤ a / b
    · rw [if_pos h1]
      simp
      rintro rfl
      rw [zero_div] at h1
      exact absurd h1 (by norm_num)
    · rw [if_neg h1]
      by_cases h0 : a / b = 0
      · rw [if_pos h0]
        simp only [true_iff]
        rcases div_eq_zero_iff.mp h0 with ha | hb0
        · exact ⟨ha, hb'⟩
        · exact absurd hb0 (ne_of_gt hb')
      · rw [if_neg h0]
        simp
        rintro rfl
        exact absurd (zero_div b) h0

theorem calculate_speedup_isSome_of_le (a b : ℚ) (h : b ≤ a) :
    (calculate_speedup a b).isSome = true := by
  unfold calculate_speedup
  by_cases hb : b ≤ 0
  · rw [if_pos hb]; rfl
  · have hb' : 0 < b := not_le.mp hb
    rw [if_neg hb, qDiv_eq, if_pos ((one_le_div hb').mpr h)]
    rfl

/-! ### Stability of the result sort -/

theorem filter_orderedInsert_mean (x : BenchmarkResult) (m : ℚ) :
    ∀ l : List BenchmarkResult,
      (List.orderedInsert meanLe x l).filter (fun r => decide (r.mean = m)) =
        if x.mean = m then x :: l.filter (fun r => decide (r.mean = m))
        else l.filter (fun r => decide (r.mean = m)) := by
  intro l
  induction l with
  | nil =>
    by_cases hx : x.mean = m <;> simp [List.orderedInsert, List.filter, hx]
  | cons y ys ih =>
    rw [List.orderedInsert]
    by_cases hxy : meanLe x y
    · rw [if_pos hxy]
      by_cases hx : x.mean = m <;> by_cases hy : y.mean = m <;>
        simp [List.filter_cons, hx, hy]
    · rw [if_neg hxy]
      have hlt : y.mean < x.mean := not_le.mp hxy
      by_cases hx : x.mean = m
      · have hy : ¬ (y.mean = m) := by
          intro hy
          rw [hx] at hlt
          rw [hy] at hlt
          exact lt_irrefl m hlt
        simp [List.filter_cons, hy, ih, hx]
      · simp [List.filter_cons, ih, hx]

theorem insertionSort_filter_mean (m : ℚ) :
    ∀ l : List BenchmarkResult,
      (List.insertionSort meanLe l).filter (fun r => decide (r.mean = m)) =
        l.filter (fun r => decide (r.mean = m)) := by
  intro l
  induction l with
  | nil => rfl
  | cons b l ih =>
    rw [List.insertionSort, filter_orderedInsert_mean]
    by_cases hb : b.mean = m <;> simp [List.filter_cons, hb, ih]

/-! ### Inversion facts for `optMapM` -/

theorem optMapM_some_of_forall (f : α → Option β) :
    ∀ l : List α, (∀ x ∈ l, (f x).isSome = true) →
      ∃ out, optMapM f l = some out ∧ out.length = l.length ∧
        (∀ i x, l.get? i = some x → ∃ y, f x = some y ∧ out.get? i = some y) := by
  intro l
  induction l with
  | nil =>
    intro _
    exact ⟨[], rfl, rfl, by intro i x h; simp at h⟩
  | cons x xs ih =>
    intro h
    obtain ⟨y, hy⟩ := Option.isSome_iff_exists.mp (h x (List.mem_cons_self x xs))
    obtain ⟨out, hout, hlen, hget⟩ := ih (fun z hz => h z (List.mem_cons_of_mem x hz))
    refine ⟨y :: out, ?_, by simp [hlen], ?_⟩
    · rw [optMapM, hy, hout]
    · intro i z hz
      match i with
      | 0 =>
        simp only [List.get?] at hz
        have h' : x = z := Option.some.inj hz
        exact ⟨y, h' ▸ hy, rfl⟩
      | i + 1 =>
        exact hget i z hz

/-! ### What the grouping loop computes -/

theorem groupOf_addTo (gs : List (String × List String)) (fam f : String) :
    ∀ k, groupOf (addTo gs fam f) k =
      if k = fam then groupOf gs fam ++ [f] else groupOf gs k := by
  induction gs with
  | nil =>
    intro k
    by_cases h : k = fam
    · subst h
      simp [addTo, groupOf]
    · have h2 : ¬ (fam = k) := fun h' => h h'.symm
      simp [addTo, groupOf, h, h2]
  | cons p rest ih =>
    intro k
    obtain ⟨k1, fs⟩ := p
    rw [addTo]
    by_cases h1 : k1 = fam
    · subst h1
      rw [if_pos rfl]
      by_cases hk : k = k1
      · subst hk
        simp [groupOf]
      · have hk1 : ¬ (k1 = k) := fun h' => hk h'.symm
        simp [groupOf, hk1, hk]
    · rw [if_neg h1]
      by_cases hk1 : k1 = k
      · subst hk1
        have h2 : ¬ (k1 = fam) := h1
        simp [groupOf, h2]
      · simp [groupOf, hk1, h1, ih k]

theorem groupOf_foldl (files : List String) :
    ∀ (gs : List (String × List String)) (k : String),
      groupOf (files.foldl (fun a f => addTo a (famOfFile f) f) gs) k =
        groupOf gs k ++ files.filter (fun g => decide (famOfFile g = k)) := by
  induction files with
  | nil => intro gs k; simp
  | cons f files ih =>
    intro gs k
    rw [List.foldl_cons, ih, groupOf_addTo]
    by_cases hk : k = famOfFile f
    · rw [if_pos hk]
      subst hk
      simp [List.filter_cons, List.append_assoc]
    · rw [if_neg hk]
      have : ¬ (famOfFile f = k) := fun h => hk h.symm
      simp [List.filter_cons, this]

theorem groupOf_buildGroups (files : List String) (k : String) :
    groupOf (buildGroups files) k =
      files.filter (fun g => decide (famOfFile g = k)) := by
  unfold buildGroups
  rw [groupOf_foldl files [] k]
  rfl

theorem addTo_keys (gs : List (String × List String)) (fam f : String) :
    (addTo gs fam f).map Prod.fst =
      if fam ∈ gs.map Prod.fst then gs.map Prod.fst
      else gs.map Prod.fst ++ [fam] := by
  induction gs with
  | nil => simp [addTo]
  | cons p rest ih =>
    match p with
    | (k1, fs) =>
      rw [addTo]
      by_cases h1 : k1 = fam
      · subst h1
        simp
      · rw [if_neg h1]
        simp only [List.map_cons, List.mem_cons]
        by_cases hm : fam ∈ rest.map Prod.fst
        · rw [ih]
          simp [hm, h1]
        · rw [ih]
          have : ¬ (fam = k1 ∨ fam ∈ rest.map Prod.fst) := by
            rintro (h' | h')
            · exact h1 h'.symm
            · exact hm h'
          have h1' : ¬ (fam = k1) := fun h' => h1 h'.symm
          simp [hm, this, h1']

theorem addTo_keys_nodup (gs : List (String × List String)) (fam f : String)
    (h : (gs.map Prod.fst).Nodup) : ((addTo gs fam f).map Prod.fst).Nodup := by
  rw [addTo_keys]
  by_cases hm : fam ∈ gs.map Prod.fst
  · rw [if_pos hm]; exact h
  · rw [if_neg hm]
    refine List.Nodup.append h (List.nodup_singleton fam) ?_
    intro a ha ha2
    rw [List.mem_singleton] at ha2
    subst ha2
    exact hm ha

theorem buildGroups_keys_nodup (files : List String) :
    ((buildGroups files).map Prod.fst).Nodup := by
  unfold buildGroups
  suffices h : ∀ (fs : List String) (gs : List (String × List String)),
      (gs.map Prod.fst).Nodup →
      ((fs.foldl (fun a f => addTo a (famOfFile f) f) gs).map Prod.fst).Nodup by
    exact h files [] List.nodup_nil
  intro fs
  induction fs with
  | nil => intro gs hgs; exact hgs
  | cons f fs ih =>
    intro gs hgs
    rw [List.foldl_cons]
    exact ih _ (addTo_keys_nodup gs _ f hgs)

theorem groupOf_of_mem (gs : List (String × List String))
    (h : (gs.map Prod.fst).Nodup) :
    ∀ p ∈ gs, groupOf gs p.1 = p.2 := by
  induction gs with
  | nil => intro p hp; simp at hp
  | cons q rest ih =>
    intro p hp
    match q with
    | (k1, fs) =>
      rcases List.mem_cons.mp hp with rfl | hp'
      · rw [groupOf, if_pos rfl]
      · rw [groupOf]
        simp only [List.map_cons, List.nodup_cons] at h
        by_cases hk : k1 = p.1
        · exfalso
          apply h.1
          rw [hk]
          exact List.mem_map.mpr ⟨p, hp', rfl⟩
        · rw [if_neg hk]
          exact ih h.2 p hp'

theorem mem_of_groupOf_ne_nil (gs : List (String × List String)) (k : String)
    (h : groupOf gs k ≠ []) : ∃ p ∈ gs, p.1 = k ∧ p.2 = groupOf gs k := by
  induction gs with
  | nil => exact absurd rfl h
  | cons q rest ih =>
    match q with
    | (k1, fs) =>
      rw [groupOf] at h ⊢
      by_cases hk : k1 = k
      · rw [if_pos hk] at h ⊢
        exact ⟨(k1, fs), List.mem_cons_self _ _, hk, rfl⟩
      · rw [if_neg hk] at h ⊢
        obtain ⟨p, hp, hp1, hp2⟩ := ih h
        exact ⟨p, List.mem_cons_of_mem _ hp, hp1, hp2⟩

theorem buildGroups_snd_ne_nil (files : List String) :
    ∀ p ∈ buildGroups files, p.2 ≠ [] := by
  intro p hp
  have hk := groupOf_of_mem (buildGroups files) (buildGroups_keys_nodup files) p hp
  rw [groupOf_buildGroups] at hk
  intro h2
  rw [h2] at hk
  -- p with an empty member list would mean no file has family p.1,
  -- but groups are only ever created around a file of their family
  suffices hmem : ∀ (fs : List String) (gs : List (String × List String)),
      (∀ q ∈ gs, q.2 ≠ []) →
      ∀ q ∈ fs.foldl (fun a f => addTo a (famOfFile f) f) gs, q.2 ≠ [] by
    exact hmem files [] (by simp) p hp h2
  intro fs
  induction fs with
  | nil => intro gs hgs q hq; exact hgs q hq
  | cons f fs ih =>
    intro gs hgs
    rw [List.foldl_cons]
    apply ih
    intro q hq
    -- membership in addTo
    clear hp hk h2
    induction gs with
    | nil =>
      rw [addTo] at hq
      rcases List.mem_singleton.mp hq with rfl
      simp
    | cons r rest ihg =>
      match r with
      | (k1, gfs) =>
        rw [addTo] at hq
        by_cases h1 : k1 = famOfFile f
        · rw [if_pos h1] at hq
          rcases List.mem_cons.mp hq with rfl | hq'
          · simp
          · exact hgs _ (List.mem_cons_of_mem _ hq')
        · rw [if_neg h1] at hq
          rcases List.mem_cons.mp hq with rfl | hq'
          · exact hgs _ (List.mem_cons_self _ _)
          · exact ihg (fun q' hq' => hgs q' (List.mem_cons_of_mem _ hq')) hq'

/-! ### Order facts for the Python string comparison -/

theorem chListLe_refl : ∀ l : List Char, chListLe l l = true := by
  intro l
  induction l with
  | nil => rfl
  | cons a as ih =>
    rw [chListLe]
    simp only [lt_self_iff_false, if_false]
    exact ih

theorem chListLe_total : ∀ as bs : List Char,
    chListLe as bs = true ∨ chListLe bs as = true := by
  intro as
  induction as with
  | nil => intro bs; exact Or.inl rfl
  | cons a as ih =>
    intro bs
    match bs with
    | [] => exact Or.inr rfl
    | b :: bs =>
      rcases lt_trichotomy a b with h | h | h
      · exact Or.inl (by rw [chListLe, if_pos h])
      · subst h
        rcases ih bs with h' | h' <;>
          [exact Or.inl (by rw [chListLe]; simp only [lt_self_iff_false, if_false]; exact h');
           exact Or.inr (by rw [chListLe]; simp only [lt_self_iff_false, if_false]; exact h')]
      · exact Or.inr (by rw [chListLe, if_pos h])

theorem chListLe_trans : ∀ as bs cs : List Char,
    chListLe as bs = true → chListLe bs cs = true → chListLe as cs = true := by
  intro as
  induction as with
  | nil => intro bs cs _ _; rfl
  | cons a as ih =>
    intro bs cs h1 h2
    match bs, cs with
    | [], _ => exact absurd h1 (by rw [chListLe]; simp)
    | _ :: _, [] => exact absurd h2 (by rw [chListLe]; simp)
    | b :: bs, c :: cs =>
      rw [chListLe] at h1 h2 ⊢
      by_cases hab : a < b
      · rw [if_pos hab] at h1
        by_cases hbc : b < c
        · rw [if_pos (lt_trans hab hbc)]
        · rw [if_neg hbc] at h2
          by_cases hcb : c < b
          · rw [if_pos hcb] at h2; exact absurd h2 (by simp)
          · have hbceq : b = c := le_antisymm (not_lt.mp hcb) (not_lt.mp hbc)
            subst hbceq
            rw [if_pos hab]
      · rw [if_neg hab] at h1
        by_cases hba : b < a
        · rw [if_pos hba] at h1; exact absurd h1 (by simp)
        · have hab' : a = b := le_antisymm (not_lt.mp hba) (not_lt.mp hab)
          subst hab'
          simp only [lt_self_iff_false, if_false] at h1
          by_cases hac : a < c
          · rw [if_pos hac]
          · rw [if_neg hac] at h2 ⊢
            by_cases hca : c < a
            · rw [if_pos hca] at h2; exact absurd h2 (by simp)
            · rw [if_neg hca] at h2 ⊢
              exact ih bs cs h1 h2

theorem chListLe_of_not_lt : ∀ as bs : List Char,
    chListLt as bs = false → chListLe bs as = true := by
  intro as
  induction as with
  | nil =>
    intro bs h
    match bs with
    | [] => rfl
    | b :: bs => exact absurd h (by rw [chListLt]; simp)
  | cons a as ih =>
    intro bs h
    match bs with
    | [] => rfl
    | b :: bs =>
      rw [chListLt] at h
      rw [chListLe]
      by_cases hab : a < b
      · rw [if_pos hab] at h; exact absurd h (by simp)
      · rw [if_neg hab] at h
        by_cases hba : b < a
        · rw [if_pos hba]
        · have hab' : a = b := le_antisymm (not_lt.mp hba) (not_lt.mp hab)
          subst hab'
          simp only [lt_self_iff_false, if_false] at h ⊢
          exact ih bs h

theorem chListLt_imp_le : ∀ as bs : List Char,
    chListLt as bs = true → chListLe as bs = true := by
  intro as
  induction as with
  | nil => intro bs _; rfl
  | cons a as ih =>
    intro bs h
    match bs with
    | [] => exact absurd h (by rw [chListLt]; simp)
    | b :: bs =>
      rw [chListLt] at h
      rw [chListLe]
      by_cases hab : a < b
      · rw [if_pos hab]
      · rw [if_neg hab] at h ⊢
        by_cases hba : b < a
        · rw [if_pos hba] at h; exact absurd h (by simp)
        · rw [if_neg hba] at h ⊢
          exact ih bs h

theorem chListLe_nil_right (l : List Char) (h : chListLe l [] = true) : l = [] := by
  match l with
  | [] => rfl
  | a :: as => exact absurd h (by rw [chListLe]; simp)

instance totalStrLe : IsTotal String strLe :=
  ⟨fun a b => chListLe_total a.data b.data⟩

instance transStrLe : IsTrans String strLe :=
  ⟨fun a b c => chListLe_trans a.data b.data c.data⟩

/-! ### What the running maximum of a group computes -/

theorem foldl_pick_mem : ∀ (fs : List String) (a : String),
    fs.foldl (fun x y => if chListLt x.data y.data then y else x) a = a ∨
      fs.foldl (fun x y => if chListLt x.data y.data then y else x) a ∈ fs := by
  intro fs
  induction fs with
  | nil => intro a; exact Or.inl rfl
  | cons f fs ih =>
    intro a
    rw [List.foldl_cons]
    rcases ih (if chListLt a.data f.data then f else a) with h | h
    · rw [h]
      by_cases hl : chListLt a.data f.data = true
      · rw [if_pos hl] at h ⊢; exact Or.inr (List.mem_cons_self f fs)
      · rw [if_neg hl] at h ⊢; exact Or.inl rfl
    · exact Or.inr (List.mem_cons_of_mem f h)

theorem foldl_pick_ge_init : ∀ (fs : List String) (a : String),
    chListLe a.data
      (fs.foldl (fun x y => if chListLt x.data y.data then y else x) a).data = true := by
  intro fs
  induction fs with
  | nil => intro a; exact chListLe_refl a.data
  | cons f fs ih =>
    intro a
    rw [List.foldl_cons]
    by_cases hl : chListLt a.data f.data = true
    · rw [if_pos hl]
      exact chListLe_trans a.data f.data _ (chListLt_imp_le _ _ hl) (ih f)
    · rw [if_neg hl]
      exact ih a

theorem foldl_pick_ge : ∀ (fs : List String) (a g : String), g ∈ fs →
    chListLe g.data
      (fs.foldl (fun x y => if chListLt x.data y.data then y else x) a).data = true := by
  intro fs
  induction fs with
  | nil => intro a g hg; simp at hg
  | cons f fs ih =>
    intro a g hg
    rw [List.foldl_cons]
    rcases List.mem_cons.mp hg with rfl | hg'
    · by_cases hl : chListLt a.data g.data = true
      · rw [if_pos hl]
        exact foldl_pick_ge_init fs g
      · rw [if_neg hl]
        have hl' : chListLt a.data g.data = false := by
          revert hl
          cases chListLt a.data g.data <;> simp
        exact chListLe_trans g.data a.data _ (chListLe_of_not_lt _ _ hl')
          (foldl_pick_ge_init fs a)
    · exact ih _ g hg'

theorem latestOf_ge (fs : List String) (g : String) (hg : g ∈ fs) :
    chListLe g.data (latestOf fs).data = true :=
  foldl_pick_ge fs "" g hg

theorem latestOf_mem (fs : List String) (h : fs ≠ []) : latestOf fs ∈ fs := by
  rcases foldl_pick_mem fs "" with h' | h'
  · match fs, h with
    | f :: fs', _ =>
      have hf := latestOf_ge (f :: fs') f (List.mem_cons_self f fs')
      unfold latestOf at hf ⊢
      rw [h'] at hf ⊢
      have hfd : f.data = [] := chListLe_nil_right f.data hf
      have hfe : f = "" := by
        cases f with
        | mk l => cases hfd; rfl
      rw [hfe]
      exact List.mem_cons_self _ _
  · unfold latestOf
    exact h'

/-! ### Auxiliary emptiness facts for the formatters -/

theorem append_ne_empty_of_right (x u : String) (hu : u.data ≠ []) : x ++ u ≠ "" := by
  intro h
  have hd := congrArg String.data h
  rw [String.data_append] at hd
  exact hu (List.append_eq_nil.mp hd).2

theorem format_time_ne_empty (d : ℚ) : format_time d ≠ "" := by
  unfold format_time
  split_ifs <;> exact append_ne_empty_of_right _ _ (by decide)

theorem format_throughput_ne_empty (s t : ℚ) : format_throughput s t ≠ "" := by
  unfold format_throughput
  split_ifs
  · decide
  · exact append_ne_empty_of_right _ _ (by decide)

theorem mkRat_thousandth : (mkRat 1 1000 : ℚ) = 1 / 1000 := by
  rw [Rat.mkRat_eq_divInt, Rat.divInt_eq_div]
  norm_num

/-! ### Claims about the metrics formatter -/

/-- Claim C2, counterexample: `format_throughput` renders one decimal
digit, not two — at size 1 and duration 1 it prints `"1.0 MB/s"`,
while a two-decimal rendering of `1/1` would be `"1.00 MB/s"`. -/
theorem c2_throughput_counterexample :
    format_throughput 1 1 = "1.0 MB/s" ∧ format_throughput 1 1 ≠ "1.00 MB/s" := by
  constructor
  · decide
  · decide

/-- Claim C2, amended: for every size `s` and every time `t`,
`format_throughput s t` returns `"N/A"` if and only if `t ≤ 0`, and
otherwise returns `s / t` rendered with exactly one decimal digit
followed by `" MB/s"`. -/
theorem c2_throughput_amended (s t : ℚ) :
    (format_throughput s t = "N/A" ↔ t ≤ 0) ∧
    (0 < t → format_throughput s t = fmtFixed 1 (s / t) ++ " MB/s") := by
  refine ⟨⟨?_, ?_⟩, ?_⟩
  · intro h
    by_contra ht
    unfold format_throughput at h
    rw [if_neg ht, qDiv_eq] at h
    exact fmtFixed_append_ne_NA 1 (s / t) " MB/s" h
  · intro h
    unfold format_throughput
    rw [if_pos h]
  · intro h
    unfold format_throughput
    rw [if_neg (not_le.mpr h), qDiv_eq]

/-- Claim C2, witness at size 3 and duration 2. -/
theorem c2_throughput_witness :
    (format_throughput 3 2 = "N/A" ↔ (2 : ℚ) ≤ 0) ∧
    ((0 : ℚ) < 2 → format_throughput 3 2 = fmtFixed 1 ((3 : ℚ) / 2) ++ " MB/s") :=
  c2_throughput_amended 3 2

/-- Claim C3, counterexample: with base mean 0 and compare mean 1 the
compare mean is positive, yet `calculate_speedup` raises
(`ZeroDivisionError` on `1 / ratio`) instead of returning a slower
label. -/
theorem c3_speedup_counterexample :
    calculate_speedup 0 1 = none ∧ (0 : ℚ) < 1 := by
  constructor
  · decide
  · norm_num

/-- Claim C3, amended: `calculate_speedup a b` returns `"N/A"` if and
only if `b ≤ 0`; for `b > 0` it returns a faster label rendering
`a / b` to two decimals when `a / b ≥ 1`, a slower label rendering the
reciprocal `b / a` to two decimals when `0 ≠ a` and `a / b < 1`, and
fails (division by zero) when `a = 0`; and for every `x > 0`,
`calculate_speedup x x` is exactly `"1.00x faster"`. -/
theorem c3_speedup_amended (a b : ℚ) :
    (calculate_speedup a b = some "N/A" ↔ b ≤ 0) ∧
    (0 < b → 1 ≤ a / b → calculate_speedup a b = some (fmtFixed 2 (a / b) ++ "x faster")) ∧
    (0 < b → a / b < 1 → a ≠ 0 → calculate_speedup a b = some (fmtFixed 2 (b / a) ++ "x slower")) ∧
    (0 < b → a = 0 → calculate_speedup a b = none) ∧
    (0 < a → calculate_speedup a a = some "1.00x faster") := by
  refine ⟨⟨?_, ?_⟩, ?_, ?_, ?_, ?_⟩
  · intro h
    by_contra hb
    unfold calculate_speedup at h
    rw [if_neg hb] at h
    split_ifs at h
    all_goals
      first
        | exact Option.noConfusion h
        | exact fmtFixed_append_ne_NA _ _ _ (Option.some.inj h)
  · intro hb
    unfold calculate_speedup
    rw [if_pos hb]
  · intro hb h1
    unfold calculate_speedup
    rw [if_neg (not_le.mpr hb), qDiv_eq, if_pos h1]
  · intro hb h1 ha
    unfold calculate_speedup
    rw [if_neg (not_le.mpr hb), qDiv_eq, if_neg (not_le.mpr h1),
      if_neg (div_ne_zero ha (ne_of_gt hb)), qDiv_eq, one_div_div]
  · intro hb ha
    exact (calculate_speedup_eq_none_iff a b).mpr ⟨ha, hb⟩
  · intro ha
    unfold calculate_speedup
    rw [if_neg (not_le.mpr ha), qDiv_eq, div_self (ne_of_gt ha), if_pos le_rfl]
    have h1 : fmtFixed 2 (1 : ℚ) ++ "x faster" = "1.00x faster" := by decide
    rw [h1]

/-- Claim C3, witness at the pairs (3, 2) and (3, 3). -/
theorem c3_speedup_witness :
    (calculate_speedup 3 2 = some "N/A" ↔ (2 : ℚ) ≤ 0) ∧
    calculate_speedup 3 2 = some (fmtFixed 2 ((3 : ℚ) / 2) ++ "x faster") ∧
    calculate_speedup 3 3 = some "1.00x faster" :=
  ⟨(c3_speedup_amended 3 2).1,
    (c3_speedup_amended 3 2).2.1 (by norm_num) (by norm_num),
    (c3_speedup_amended 3 3).2.2.2.2 (by norm_num)⟩

/-- Claim C9 (confirmed): for every non-negative duration `d`,
`format_time` renders microseconds (`d * 1000000` to one decimal) when
`d < 0.001`, milliseconds (`d * 1000` to one decimal) when
`0.001 ≤ d < 1`, and seconds (`d` to three decimals) when `d ≥ 1`; the
boundary values fall in the upper bucket. -/
theorem c9_format_time (d : ℚ) (_hd : 0 ≤ d) :
    (d < 1 / 1000 → format_time d = fmtFixed 1 (d * 1000000) ++ " µs") ∧
    (1 / 1000 ≤ d → d < 1 → format_time d = fmtFixed 1 (d * 1000) ++ " ms") ∧
    (1 ≤ d → format_time d = fmtFixed 3 d ++ " s") := by
  refine ⟨?_, ?_, ?_⟩
  · intro h
    unfold format_time
    have h' : d < mkRat 1 1000 := by rw [mkRat_thousandth]; exact h
    rw [if_pos h', qMul_eq]
  · intro h1 h2
    unfold format_time
    have h1' : ¬ (d < mkRat 1 1000) := by rw [mkRat_thousandth]; exact not_lt.mpr h1
    rw [if_neg h1', if_pos h2, qMul_eq]
  · intro h
    unfold format_time
    have h1' : ¬ (d < mkRat 1 1000) := by
      rw [mkRat_thousandth]
      exact not_lt.mpr (le_trans (by norm_num) h)
    rw [if_neg h1', if_neg (not_lt.mpr h)]

/-- Claim C9, witness at the boundary durations 0.001 and 1: both fall
in the upper bucket. -/
theorem c9_format_time_witness :
    format_time (1 / 1000) = fmtFixed 1 ((1 / 1000 : ℚ) * 1000) ++ " ms" ∧
    format_time 1 = fmtFixed 3 1 ++ " s" :=
  ⟨(c9_format_time (1 / 1000) (by norm_num)).2.1 le_rfl (by norm_num),
    (c9_format_time 1 (by norm_num)).2.2 le_rfl⟩

/-- Claim C5, counterexample: `get_tool_name` fails (uncaught
`IndexError` from `command.split()[0]`) on the empty and on a
whitespace-only command, so the formatter family is not total. -/
theorem c5_totality_counterexample :
    get_tool_name "" = none ∧ get_tool_name "   " = none := by
  constructor
  · decide
  · decide

/-- Claim C5, amended: `format_time` and `format_throughput` always
return text, but `get_tool_name` fails exactly on commands consisting
solely of whitespace, and `calculate_speedup` fails exactly on a zero
base mean with a positive compare mean. -/
theorem c5_totality_amended :
    (∀ c : String, get_tool_name c = none ↔ c.data.all isSpace = true) ∧
    (∀ a b : ℚ, calculate_speedup a b = none ↔ (a = 0 ∧ 0 < b)) ∧
    (∀ d : ℚ, format_time d ≠ "") ∧
    (∀ s t : ℚ, format_throughput s t ≠ "") :=
  ⟨get_tool_name_eq_none_iff, calculate_speedup_eq_none_iff,
    format_time_ne_empty, format_throughput_ne_empty⟩

/-- Claim C5, witness at concrete inputs. -/
theorem c5_totality_witness :
    (get_tool_name "rg -n pat" = none ↔ "rg -n pat".data.all isSpace = true) ∧
    (calculate_speedup 2 1 = none ↔ ((2 : ℚ) = 0 ∧ (0 : ℚ) < 1)) ∧
    format_time 5 ≠ "" ∧ format_throughput 4 2 ≠ "" :=
  ⟨c5_totality_amended.1 "rg -n pat", c5_totality_amended.2.1 2 1,
    c5_totality_amended.2.2.1 5, c5_totality_amended.2.2.2 4 2⟩

/-- Claim C4, counterexample: a command that is exactly `"rg"` (a bare
rg token with nothing after it) falls through to the first-token
fallback instead of mapping to ripgrep, and the `"/grep"` path check
is case-sensitive, so `"/GREP x"` falls through as well. -/
theorem c4_tool_counterexample :
    get_tool_name "rg" = some "rg" ∧ get_tool_name "rg" ≠ some "ripgrep" ∧
    get_tool_name "/GREP x" = some "/GREP" ∧
    get_tool_name "/GREP x" ≠ some "gnu-grep" := by
  refine ⟨?_, ?_, ?_, ?_⟩ <;> decide

/-- Claim C4, amended: `get_tool_name` classifies with this exact
precedence — a command containing `"mygrep"` case-insensitively maps
to mygrep even if it also contains `"grep"`; otherwise one containing
`"ripgrep"` case-insensitively, or the case-sensitive substrings
`"rg "` or `"rg'"` (so a trailing bare `"rg"` does not match), maps to
ripgrep; otherwise one containing `"ggrep"` or `"gnu-grep"`
case-insensitively, or the case-sensitive substring `"/grep"`, maps to
gnu-grep; otherwise the result is the first whitespace-delimited
token. -/
theorem c4_tool_amended (c : String) :
    (strContains (pyLower c) "mygrep" = true → get_tool_name c = some "mygrep") ∧
    (strContains (pyLower c) "mygrep" = false →
      (strContains (pyLower c) "ripgrep" || strContains c "rg " ||
        strContains c rgQuote) = true →
      get_tool_name c = some "ripgrep") ∧
    (strContains (pyLower c) "mygrep" = false →
      (strContains (pyLower c) "ripgrep" || strContains c "rg " ||
        strContains c rgQuote) = false →
      (strContains (pyLower c) "ggrep" || strContains (pyLower c) "gnu-grep" ||
        strContains c "/grep") = true →
      get_tool_name c = some "gnu-grep") ∧
    (strContains (pyLower c) "mygrep" = false →
      (strContains (pyLower c) "ripgrep" || strContains c "rg " ||
        strContains c rgQuote) = false →
      (strContains (pyLower c) "ggrep" || strContains (pyLower c) "gnu-grep" ||
        strContains c "/grep") = false →
      get_tool_name c = (pySplit c).head?) := by
  refine ⟨?_, ?_, ?_, ?_⟩
  · intro h1
    simp [get_tool_name, h1]
  · intro h1 h2
    simp [get_tool_name, h1, h2]
  · intro h1 h2 h3
    simp [get_tool_name, h1, h2, h3]
  · intro h1 h2 h3
    simp [get_tool_name, h1, h2, h3]

/-- Claim C4, witness: precedence of mygrep over grep, the rg alias
with a trailing space, and the first-token fallback. -/
theorem c4_tool_witness :
    get_tool_name "mygrep and grep" = some "mygrep" ∧
    get_tool_name "rg pat" = some "ripgrep" ∧
    get_tool_name "unknowncmd -x" = (pySplit "unknowncmd -x").head? :=
  ⟨(c4_tool_amended "mygrep and grep").1 (by decide),
    (c4_tool_amended "rg pat").2.1 (by decide) (by decide),
    (c4_tool_amended "unknowncmd -x").2.2.2 (by decide) (by decide) (by decide)⟩

/-! ### Claims about the record loader -/

theorem from_hyperfine_ok (x : JVal) (h : isObjB x = true) :
    ∃ r, from_hyperfine x = .ok r := by
  match x, h with
  | .obj fields, _ => exact ⟨_, rfl⟩

theorem exMapM_ok (f : α → Except PyErr β) :
    ∀ l : List α, (∀ x ∈ l, ∃ y, f x = .ok y) → ∃ ys, exMapM f l = .ok ys := by
  intro l
  induction l with
  | nil => intro _; exact ⟨[], rfl⟩
  | cons x xs ih =>
    intro h
    obtain ⟨y, hy⟩ := h x (List.mem_cons_self x xs)
    obtain ⟨ys, hys⟩ := ih (fun z hz => h z (List.mem_cons_of_mem x hz))
    exact ⟨y :: ys, by rw [exMapM, hy, hys]⟩

/-- Claim C6, counterexample: the file content `[]` is valid JSON, yet
the loader raises an uncaught `AttributeError` (`data.get` on a list)
instead of warning and returning absent. -/
theorem c6_loader_counterexample :
    from_json_file "f" (some (JVal.arr [])) = LoadOutcome.raised PyErr.attributeError := by
  decide

/-- Claim C6, amended: when the file cannot be read or its content is
not valid JSON, the loader warns on the error stream and returns
absent; and every record of the documented shape — a JSON object whose
`metadata` field, if present, is an object and whose `results` field,
if present, is an array of objects — loads into a `BenchmarkRun`.
The loader is not exception-free on the remaining valid-JSON shapes:
a top-level array, for instance, raises an uncaught `AttributeError`
(though some off-shape records, such as an empty-dict `results`,
still load). -/
theorem c6_loader_amended :
    (∀ stem, from_json_file stem none = LoadOutcome.skipped) ∧
    (∀ stem data, goodShape data = true →
      ∃ run, from_json_file stem (some data) = LoadOutcome.loaded run) := by
  constructor
  · intro stem
    rfl
  · intro stem data hgood
    cases data with
    | null => exact absurd hgood (by simp [goodShape])
    | bool b => exact absurd hgood (by simp [goodShape])
    | num q => exact absurd hgood (by simp [goodShape])
    | str s => exact absurd hgood (by simp [goodShape])
    | arr elems => exact absurd hgood (by simp [goodShape])
    | obj fields =>
      rw [goodShape, Bool.and_eq_true] at hgood
      obtain ⟨hmeta, hres⟩ := hgood
      have hm : ∃ mfields, (jLookup fields "metadata").getD (.obj []) = .obj mfields := by
        rcases hml : jLookup fields "metadata" with - | m
        · exact ⟨[], rfl⟩
        · rw [hml] at hmeta
          match m, hmeta with
          | .obj mfields, _ => exact ⟨mfields, rfl⟩
      have hr : ∃ xs, (jLookup fields "results").getD (.arr []) = .arr xs ∧
          (∀ x ∈ xs, isObjB x = true) := by
        rcases hrl : jLookup fields "results" with - | r
        · exact ⟨[], rfl, by intro x hx; simp at hx⟩
        · rw [hrl] at hres
          match r, hres with
          | .arr xs, hres => exact ⟨xs, rfl, List.all_eq_true.mp hres⟩
      obtain ⟨mfields, hm⟩ := hm
      obtain ⟨xs, hr, hxs⟩ := hr
      obtain ⟨results, hresults⟩ :=
        exMapM_ok from_hyperfine xs (fun x hx => from_hyperfine_ok x (hxs x hx))
      have hb : buildRun stem (.obj fields) =
          .ok ⟨coStr ((jLookup mfields "benchmark_name").getD (.str stem)),
            coStr ((jLookup mfields "timestamp").getD (.str "unknown")),
            coStr ((jLookup mfields "pattern").getD (.str "unknown")),
            coStr ((jLookup mfields "target_path").getD (.str "unknown")),
            coNum ((jLookup mfields "size_mb").getD (.num 0)),
            coInt ((jLookup mfields "file_count").getD (.num 1)),
            coBool ((jLookup mfields "cold_run").getD (.bool false)),
            results⟩ := by
        simp only [buildRun, dictGet, hm, hr, jIter, hresults]
      exact ⟨_, by
        rw [show from_json_file stem (some (JVal.obj fields)) =
            (match buildRun stem (JVal.obj fields) with
              | .error e => LoadOutcome.raised e
              | .ok run => LoadOutcome.loaded run) from rfl, hb]⟩

/-- Claim C6, witness: an unreadable file and a minimal well-shaped
record. -/
theorem c6_loader_witness :
    from_json_file "w" none = LoadOutcome.skipped ∧
    ∃ run, from_json_file "w"
      (some (JVal.obj [("metadata", JVal.obj [("benchmark_name", JVal.str "b")]),
        ("results", JVal.arr [JVal.obj [("command", JVal.str "rg x")]])])) =
      LoadOutcome.loaded run :=
  ⟨c6_loader_amended.1 "w", c6_loader_amended.2 "w" _ (by decide)⟩

/-! ### Claims about the CSV renderer -/

theorem csvRowText_comma_count (run : BenchmarkRun) (r : BenchmarkResult) (t : String)
    (h : strContains run.name "," = true ∨ strContains run.pattern "," = true) :
    12 ≤ (csvRowText run r t).data.count ',' := by
  unfold csvRowText
  simp only [String.data_append, List.count_append]
  rw [show (",".data.count ',') = 1 from rfl]
  rcases h with h | h
  · have h1 : 0 < run.name.data.count ',' :=
      List.count_pos_iff.mpr (strContains_mem _ _ h ',' (by decide))
    omega
  · have h1 : 0 < run.pattern.data.count ',' :=
      List.count_pos_iff.mpr (strContains_mem _ _ h ',' (by decide))
    omega

/-- Claim C10 (confirmed): the CSV renderer performs no quoting — each
data row is the plain comma join of the raw field texts
(`csvRowText`), so a run whose name or pattern contains a comma yields
data rows with more than the twelve comma-separated fields the header
declares. -/
theorem c10_csv_no_quoting (run : BenchmarkRun)
    (hc : ∀ r ∈ run.results, (get_tool_name r.command).isSome = true)
    (hcomma : strContains run.name "," = true ∨ strContains run.pattern "," = true) :
    ∃ lines, print_csv_report [run] = some lines ∧
      lines.length = run.results.length + 1 ∧
      (∀ i r, run.results.get? i = some r → ∃ tool_name,
        get_tool_name r.command = some tool_name ∧
        lines.get? (i + 1) = some (csvRowText run r tool_name)) ∧
      (∀ row ∈ lines.tail, 12 < (splitChar ',' row.data).length) := by
  obtain ⟨rows, hrows, hlen, hget⟩ :=
    optMapM_some_of_forall (csvRow run) run.results (fun r hr => by
      obtain ⟨t, ht⟩ := Option.isSome_iff_exists.mp (hc r hr)
      unfold csvRow
      rw [ht]
      rfl)
  have h1 : csvRowsForRun run = some rows := hrows
  have h2 : optMapM csvRowsForRun [run] = some [rows] := by
    rw [optMapM, h1, optMapM]
  refine ⟨csvHeader :: rows, ?_, by simp [hlen], ?_, ?_⟩
  · unfold print_csv_report
    rw [h2]
    simp
  · intro i r hir
    obtain ⟨y, hy, houti⟩ := hget i r hir
    obtain ⟨t, ht⟩ := Option.isSome_iff_exists.mp (hc r (List.get?_mem hir))
    unfold csvRow at hy
    rw [ht] at hy
    refine ⟨t, ht, ?_⟩
    rw [show (csvHeader :: rows).get? (i + 1) = rows.get? i from rfl, houti,
      ← Option.some.inj hy]
  · intro row hrow
    have hrow' : row ∈ rows := by simpa using hrow
    obtain ⟨i, hi⟩ := List.mem_iff_get?.mp hrow'
    have hlti : i < run.results.length := by
      have hlt : i < rows.length := by
        by_contra hge
        rw [List.get?_eq_none.mpr (not_lt.mp hge)] at hi
        exact Option.noConfusion hi
      rwa [hlen] at hlt
    have hir : run.results.get? i = some (run.results.get ⟨i, hlti⟩) :=
      List.get?_eq_get hlti
    obtain ⟨y, hy, houti⟩ := hget i _ hir
    have hyrow : y = row := by
      rw [houti] at hi
      exact Option.some.inj hi
    subst hyrow
    obtain ⟨t, ht⟩ := Option.isSome_iff_exists.mp (hc _ (List.get?_mem hir))
    unfold csvRow at hy
    rw [ht] at hy
    have hrt : csvRowText run (run.results.get ⟨i, hlti⟩) t = y := Option.some.inj hy
    rw [splitChar_length]
    have hbound := csvRowText_comma_count run (run.results.get ⟨i, hlti⟩) t hcomma
    rw [hrt] at hbound
    omega

/-- Claim C10, witness: a run whose name contains a comma produces a
thirteen-field data row. -/
theorem c10_csv_witness :
    ∃ lines, print_csv_report [commaRun] = some lines ∧
      lines.length = commaRun.results.length + 1 ∧
      (∀ i r, commaRun.results.get? i = some r → ∃ tool_name,
        get_tool_name r.command = some tool_name ∧
        lines.get? (i + 1) = some (csvRowText commaRun r tool_name)) ∧
      (∀ row ∈ lines.tail, 12 < (splitChar ',' row.data).length) :=
  c10_csv_no_quoting commaRun (by decide) (Or.inl (by decide))

/-! ### Claims about the human-readable table -/

/-- Claim C8, counterexample: a run with two structurally identical
results labels both rows `"baseline"`; the second row does not show
the `"1.00x faster"` text that `calculate_speedup` would produce for
its mean against the baseline mean. -/
theorem c8_table_counterexample :
    reportTableRows dupRun = some [rowText dupRun mygrepR "mygrep" "baseline",
      rowText dupRun mygrepR "mygrep" "baseline"] ∧
    calculate_speedup mygrepR.mean mygrepR.mean = some "1.00x faster" ∧
    ((reportTableRows dupRun).getD []).all
      (fun row => !(strContains row "1.00x faster")) = true := by
  refine ⟨?_, ?_, ?_⟩ <;> decide

/-- Claim C8, amended: for every run with a non-empty results list
(whose commands all classify), the per-run table lists the results
sorted ascending by mean with ties kept in original relative order —
a stable sort — and each row is labeled `"baseline"` when the result
is structurally equal to the first sorted result, and otherwise shows
its speedup against the baseline mean via `calculate_speedup`. -/
theorem c8_table_amended (run : BenchmarkRun) (hne : run.results ≠ [])
    (hc : ∀ r ∈ run.results, (get_tool_name r.command).isSome = true) :
    ∃ fastest rest rows,
      List.insertionSort meanLe run.results = fastest :: rest ∧
      List.Sorted meanLe (fastest :: rest) ∧
      List.Perm (fastest :: rest) run.results ∧
      (∀ m : ℚ, (fastest :: rest).filter (fun r => decide (r.mean = m)) =
        run.results.filter (fun r => decide (r.mean = m))) ∧
      reportTableRows run = some rows ∧
      rows.length = run.results.length ∧
      (∀ i r row, (fastest :: rest).get? i = some r → rows.get? i = some row →
        ∃ tool_name, get_tool_name r.command = some tool_name ∧
          ((r = fastest → row = rowText run r tool_name "baseline") ∧
            (r ≠ fastest → ∃ sp, calculate_speedup r.mean fastest.mean = some sp ∧
              row = rowText run r tool_name sp))) := by
  obtain ⟨fastest, rest, hsort⟩ :
      ∃ fastest rest, List.insertionSort meanLe run.results = fastest :: rest := by
    rcases h : List.insertionSort meanLe run.results with - | ⟨f, rest⟩
    · have hperm := List.perm_insertionSort meanLe run.results
      rw [h] at hperm
      exact absurd hperm.symm.eq_nil hne
    · exact ⟨f, rest, rfl⟩
  have hsorted : List.Sorted meanLe (fastest :: rest) := by
    rw [← hsort]
    exact List.sorted_insertionSort meanLe run.results
  have hperm : List.Perm (fastest :: rest) run.results := by
    rw [← hsort]
    exact List.perm_insertionSort meanLe run.results
  have hmin : ∀ r ∈ fastest :: rest, fastest.mean ≤ r.mean := by
    intro r hr
    rcases List.mem_cons.mp hr with rfl | hr'
    · exact le_refl r.mean
    · exact List.rel_of_sorted_cons hsorted r hr'
  obtain ⟨rows, hrows, hlen, hget⟩ :=
    optMapM_some_of_forall (resultLine run fastest) (fastest :: rest) (fun r hr => by
      obtain ⟨t, ht⟩ := Option.isSome_iff_exists.mp (hc r (hperm.mem_iff.mp hr))
      unfold resultLine
      rw [ht]
      by_cases hrf : r = fastest
      · rw [if_pos hrf]
        rfl
      · rw [if_neg hrf]
        obtain ⟨sp, hsp⟩ := Option.isSome_iff_exists.mp
          (calculate_speedup_isSome_of_le r.mean fastest.mean (hmin r hr))
        rw [hsp]
        rfl)
  refine ⟨fastest, rest, rows, hsort, hsorted, hperm, ?_, ?_, ?_, ?_⟩
  · intro m
    rw [← hsort]
    exact insertionSort_filter_mean m run.results
  · unfold reportTableRows
    rw [hsort]
    exact hrows
  · rw [hlen]
    simp [hperm.length_eq]
  · intro i r row h1 h2
    obtain ⟨y, hy, houti⟩ := hget i r h1
    have hyrow : y = row := by
      rw [houti] at h2
      exact Option.some.inj h2
    subst hyrow
    obtain ⟨t, ht⟩ := Option.isSome_iff_exists.mp
      (hc r (hperm.mem_iff.mp (List.get?_mem h1)))
    unfold resultLine at hy
    rw [ht] at hy
    refine ⟨t, ht, ?_, ?_⟩
    · intro hrf
      rw [if_pos hrf] at hy
      exact (Option.some.inj hy).symm
    · intro hrf
      rw [if_neg hrf] at hy
      obtain ⟨sp, hsp⟩ := Option.isSome_iff_exists.mp
        (calculate_speedup_isSome_of_le r.mean fastest.mean
          (hmin r (List.get?_mem h1)))
      rw [hsp] at hy
      exact ⟨sp, hsp, (Option.some.inj hy).symm⟩

/-- Claim C8, witness: the two-tool run instantiates the amended
claim. -/
theorem c8_table_witness :
    ∃ fastest rest rows,
      List.insertionSort meanLe twoToolRun.results = fastest :: rest ∧
      List.Sorted meanLe (fastest :: rest) ∧
      List.Perm (fastest :: rest) twoToolRun.results ∧
      (∀ m : ℚ, (fastest :: rest).filter (fun r => decide (r.mean = m)) =
        twoToolRun.results.filter (fun r => decide (r.mean = m))) ∧
      reportTableRows twoToolRun = some rows ∧
      rows.length = twoToolRun.results.length ∧
      (∀ i r row, (fastest :: rest).get? i = some r → rows.get? i = some row →
        ∃ tool_name, get_tool_name r.command = some tool_name ∧
          ((r = fastest → row = rowText twoToolRun r tool_name "baseline") ∧
            (r ≠ fastest → ∃ sp, calculate_speedup r.mean fastest.mean = some sp ∧
              row = rowText twoToolRun r tool_name sp))) :=
  c8_table_amended twoToolRun (by decide) (by decide)

/-! ### Claims about the summary block -/

theorem mkRat_half : (mkRat 1 2 : ℚ) = 1 / 2 := by
  rw [Rat.mkRat_eq_divInt, Rat.divInt_eq_div]
  norm_num

theorem speedup_one_half : calculate_speedup 1 (1 / 2) = some "2.00x faster" := by
  rw [← mkRat_half]
  decide

/-- Claim C1, counterexample: in the concrete two-tool run with
mygrep mean 1 and ripgrep mean 0.5, no printed line contains
`"2.00x slower"`; the summary line printed is
`"    mygrep vs ripgrep: 2.00x faster"`. -/
theorem c1_summary_counterexample :
    (print_benchmark_report twoToolRun).isSome = true ∧
    ((print_benchmark_report twoToolRun).getD []).all
      (fun l => !(strContains l "2.00x slower")) = true ∧
    "    mygrep vs ripgrep: 2.00x faster" ∈ (print_benchmark_report twoToolRun).getD [] := by
  refine ⟨?_, ?_, ?_⟩ <;> decide

/-- Claim C1, amended: for a run containing exactly two results, one
identified as mygrep with mean 1.0 seconds and one identified as
ripgrep with mean 0.5 seconds, the human-readable summary block prints
the line `"mygrep vs ripgrep: 2.00x faster"` (indented four spaces). -/
theorem c1_summary_amended (run : BenchmarkRun) (a b : BenchmarkResult)
    (hres : run.results = [a, b] ∨ run.results = [b, a])
    (hta : get_tool_name a.command = some "mygrep")
    (htb : get_tool_name b.command = some "ripgrep")
    (hma : a.mean = 1) (hmb : b.mean = 1 / 2) :
    ∃ lines, print_benchmark_report run = some lines ∧
      "    mygrep vs ripgrep: 2.00x faster" ∈ lines := by
  have hab : ¬ meanLe a b := by
    rw [meanLe, hma, hmb]
    norm_num
  have hba : meanLe b a := by
    rw [meanLe, hma, hmb]
    norm_num
  have hne : a ≠ b := by
    intro h
    rw [h, hmb] at hma
    norm_num at hma
  have hsort : List.insertionSort meanLe run.results = [b, a] := by
    rcases hres with h | h <;> rw [h]
    · simp [List.insertionSort, List.orderedInsert, hab]
    · simp [List.insertionSort, List.orderedInsert, hba]
  have hspeed : calculate_speedup a.mean b.mean = some "2.00x faster" := by
    rw [hma, hmb]
    exact speedup_one_half
  have hrb : resultLine run b b = some (rowText run b "ripgrep" "baseline") := by
    unfold resultLine
    rw [htb, if_pos rfl]
  have hra : resultLine run b a = some (rowText run a "mygrep" "2.00x faster") := by
    unfold resultLine
    rw [hta, if_neg hne, hspeed]
  have hrows : reportTableRows run =
      some [rowText run b "ripgrep" "baseline", rowText run a "mygrep" "2.00x faster"] := by
    unfold reportTableRows
    rw [hsort]
    simp only [optMapM, hrb, hra]
  have hmg : pyFirstMygrep run.results = some (some a) := by
    have hc1 : strContains "mygrep" "mygrep" = true := by decide
    have hc2 : strContains "ripgrep" "mygrep" = false := by decide
    rcases hres with h | h <;> rw [h] <;>
      simp [pyFirstMygrep, hta, htb, hc1, hc2]
  have hsum : summaryLinesFor a [b, a] =
      some ["    mygrep vs ripgrep: 2.00x faster"] := by
    simp [summaryLinesFor, hta, htb, hspeed]
  have hempty : run.results.isEmpty = false := by
    rcases hres with h | h <;> rw [h] <;> rfl
  have hreport : print_benchmark_report run = some (headerBlock run ++
      (tableHeader :: sepLine '-' 80 ::
        [rowText run b "ripgrep" "baseline", rowText run a "mygrep" "2.00x faster"]) ++ [""] ++
      "  Summary:" :: ["    mygrep vs ripgrep: 2.00x faster"]) := by
    simp only [print_benchmark_report, hempty, Bool.false_eq_true, if_false,
      hrows, hmg, hsort, hsum]
  exact ⟨_, hreport, by simp⟩

/-- Claim C1, witness: the concrete two-tool run instantiates the
amended claim. -/
theorem c1_summary_witness :
    ∃ lines, print_benchmark_report twoToolRun = some lines ∧
      "    mygrep vs ripgrep: 2.00x faster" ∈ lines :=
  c1_summary_amended twoToolRun mygrepR ripgrepR (Or.inl rfl) (by decide) (by decide)
    rfl (by rw [show ripgrepR.mean = mkRat 1 2 from rfl, mkRat_half])

/-! ### Claim about the file selector -/

/-- Claim C7 (confirmed): with `latest_only`, `find_result_files`
groups filenames by family (`famOfFile`: the stem with its trailing
two underscore segments stripped, or the whole stem when fewer than
three segments exist), keeps the lexicographically greatest filename
per group, and returns the kept files sorted; and the three-file
example returns exactly the two expected files. -/
theorem c7_selector :
    (∀ files : List String,
      (∀ f ∈ find_result_files files true,
        f ∈ files ∧ ∀ g ∈ files, famOfFile g = famOfFile f →
          chListLe g.data f.data = true) ∧
      (∀ g ∈ files, ∃ f ∈ find_result_files files true, famOfFile f = famOfFile g) ∧
      List.Sorted strLe (find_result_files files true)) ∧
    find_result_files ["grepbench_2024-01-01_1000.json", "grepbench_2024-01-02_1100.json",
      "otherbench_2024-01-01_0900.json"] true =
      ["grepbench_2024-01-02_1100.json", "otherbench_2024-01-01_0900.json"] := by
  constructor
  · intro files
    have hmemsort : ∀ (l : List String) (x : String),
        x ∈ List.insertionSort strLe l ↔ x ∈ l := by
      intro l x
      exact (List.perm_insertionSort strLe l).mem_iff
    by_cases hempty : (sortStr files).isEmpty = true
    · have hfe : files = [] := by
        have := List.isEmpty_iff.mp hempty
        have hperm := List.perm_insertionSort strLe files
        rw [show sortStr files = List.insertionSort strLe files from rfl] at this
        rw [this] at hperm
        exact hperm.symm.eq_nil
      subst hfe
      refine ⟨?_, ?_, ?_⟩
      · intro f hf
        rw [show find_result_files [] true = [] by rfl] at hf
        simp at hf
      · intro g hg
        simp at hg
      · rw [show find_result_files [] true = [] by rfl]
        exact List.sorted_nil
    · have hfr : find_result_files files true =
          sortStr ((buildGroups (sortStr files)).map (fun p => latestOf p.2)) := by
        unfold find_result_files
        rw [if_neg hempty, if_pos rfl]
      have hnodup := buildGroups_keys_nodup (sortStr files)
      refine ⟨?_, ?_, ?_⟩
      · intro f hf
        rw [hfr] at hf
        rw [show sortStr ((buildGroups (sortStr files)).map (fun p => latestOf p.2)) =
            List.insertionSort strLe ((buildGroups (sortStr files)).map
              (fun p => latestOf p.2)) from rfl, hmemsort] at hf
        obtain ⟨p, hp, hlat⟩ := List.mem_map.mp hf
        have hgrp : p.2 = (sortStr files).filter (fun g => decide (famOfFile g = p.1)) := by
          rw [← groupOf_of_mem _ hnodup p hp, groupOf_buildGroups]
        have hpne : p.2 ≠ [] := buildGroups_snd_ne_nil (sortStr files) p hp
        have hfin : f ∈ p.2 := hlat ▸ latestOf_mem p.2 hpne
        have hff : f ∈ sortStr files ∧ famOfFile f = p.1 := by
          rw [hgrp] at hfin
          have := List.mem_filter.mp hfin
          exact ⟨this.1, of_decide_eq_true this.2⟩
        constructor
        · rw [show sortStr files = List.insertionSort strLe files from rfl,
            hmemsort] at hff
          exact hff.1
        · intro g hg hfam
          have hgin : g ∈ p.2 := by
            rw [hgrp]
            refine List.mem_filter.mpr ⟨?_, ?_⟩
            · rw [show sortStr files = List.insertionSort strLe files from rfl,
                hmemsort]
              exact hg
            · exact decide_eq_true (hfam.trans hff.2)
          rw [← hlat]
          exact latestOf_ge p.2 g hgin
      · intro g hg
        have hgin : g ∈ sortStr files := by
          rw [show sortStr files = List.insertionSort strLe files from rfl, hmemsort]
          exact hg
        have hgrp : g ∈ groupOf (buildGroups (sortStr files)) (famOfFile g) := by
          rw [groupOf_buildGroups]
          exact List.mem_filter.mpr ⟨hgin, decide_eq_true rfl⟩
        have hne : groupOf (buildGroups (sortStr files)) (famOfFile g) ≠ [] := by
          intro h
          rw [h] at hgrp
          simp at hgrp
        obtain ⟨p, hp, hp1, hp2⟩ := mem_of_groupOf_ne_nil _ _ hne
        have hpne : p.2 ≠ [] := buildGroups_snd_ne_nil (sortStr files) p hp
        refine ⟨latestOf p.2, ?_, ?_⟩
        · rw [hfr]
          rw [show sortStr ((buildGroups (sortStr files)).map (fun p => latestOf p.2)) =
              List.insertionSort strLe ((buildGroups (sortStr files)).map
                (fun p => latestOf p.2)) from rfl, hmemsort]
          exact List.mem_map.mpr ⟨p, hp, rfl⟩
        · have hlin : latestOf p.2 ∈ p.2 := latestOf_mem p.2 hpne
          have hgrp2 : p.2 = (sortStr files).filter
              (fun x => decide (famOfFile x = p.1)) := by
            rw [← groupOf_of_mem _ hnodup p hp, groupOf_buildGroups]
          have hmemf : latestOf p.2 ∈ (sortStr files).filter
              (fun x => decide (famOfFile x = p.1)) := by
            rw [← hgrp2]
            exact hlin
          have hfam := (List.mem_filter.mp hmemf).2
          rw [of_decide_eq_true hfam, hp1]
      · rw [hfr]
        exact List.sorted_insertionSort strLe _
  · decide

/-- Claim C7, witness: in the concrete three-file example the kept
grepbench file is present and dominates the discarded one. -/
theorem c7_selector_witness :
    "grepbench_2024-01-02_1100.json" ∈ find_result_files
      ["grepbench_2024-01-01_1000.json", "grepbench_2024-01-02_1100.json",
        "otherbench_2024-01-01_0900.json"] true ∧
    chListLe "grepbench_2024-01-01_1000.json".data
      "grepbench_2024-01-02_1100.json".data = true := by
  refine ⟨by decide, ?_⟩
  exact ((c7_selector.1 ["grepbench_2024-01-01_1000.json", "grepbench_2024-01-02_1100.json",
      "otherbench_2024-01-01_0900.json"]).1 "grepbench_2024-01-02_1100.json"
      (by decide)).2 "grepbench_2024-01-01_1000.json" (by decide) (by decide)

end BenchReport
